import Mathlib

/-!
Shallow embedding of the incident-grouping engine of
`src/incident_grouper.py` (class `IncidentGrouper`).

Modelling conventions:
* A parsed log dictionary becomes `LogRecord`.  Its `timestamp` is modelled
  as a natural number of seconds: the Python code sorts by the ISO-8601
  timestamp string and then converts it with `datetime.fromisoformat`; for
  such strings lexicographic order coincides with chronological order, so a
  single numeric field models both the sort key and the parsed datetime.
* `timedelta(minutes=m)` compared against a datetime difference becomes the
  integer `60 * m` (seconds) compared against an integer difference of
  timestamps (`time_window`).
* Python exceptions are modelled by `Option`: `none` is a raised exception.
  `_create_incident` raises `ValueError` on an empty list (via `min([])`),
  and `group_incidents` raises `ZeroDivisionError` in its summary `print`
  (`len(logs_with_blocks)/len(incidents)`) whenever no incident was built.
* The stable Python `list.sort` is modelled by a stable insertion sort
  (`insertionSort`): any two stable sorts on the same key agree pointwise.
* Iteration over a Python `dict` or `set` is modelled by first-occurrence order
  (`dedupFirstAux`); the spec treats those collections as unordered.
-/

namespace LogIncidents

/-- One parsed log dictionary, restricted to the fields the grouping engine
reads: `block_id` (`None` when absent), `timestamp` (seconds), `level`,
`component`. -/
structure LogRecord where
  block_id : Option String
  timestamp : Nat
  level : String
  component : String
  deriving Repr, DecidableEq

/-- The incident dictionary built by `IncidentGrouper._create_incident`.
`start_time`/`end_time` keep the numeric timestamp (the code stores its
`isoformat`, an injective image). -/
structure Incident where
  incident_id : Nat
  block_id : String
  start_time : Nat
  end_time : Nat
  duration_seconds : Int
  num_logs : Nat
  severity : String
  components : List String
  logs : List LogRecord
  deriving Repr, DecidableEq

/-- Truthiness test `log.get(block_id)` of the filter on line 37:
a missing key or an empty string is falsy. -/
def hasBlockId (r : LogRecord) : Bool :=
  match r.block_id with
  | none => false
  | some s => !s.isEmpty

/-- The `block_id` value used as the grouping key (`log[block_id]`). -/
def keyOf (r : LogRecord) : String := r.block_id.getD ""

/-- The fixed ordinal scale FATAL 4, ERROR 3, WARN 2, INFO 1, DEBUG 0,
accessed with `.get(x, 0)`: unknown labels map to 0. -/
def level_priority (l : String) : Nat :=
  if l = "FATAL" then 4
  else if l = "ERROR" then 3
  else if l = "WARN" then 2
  else if l = "INFO" then 1
  else 0

/-- One step of the Python `max(..., key=...)` scan: the running best is
replaced only when the candidate key is strictly greater, so the first
element attaining the maximum survives. -/
def pickWorse (best y : String) : String :=
  if level_priority y > level_priority best then y else best

/-- Python `max(levels, key=lambda x: level_priority.get(x, 0))` on the
non-empty list `b :: ys`. -/
def pyMaxBy (b : String) (ys : List String) : String := ys.foldl pickWorse b

/-- Python `min` on the non-empty list `b :: ys`. -/
def pyMinNat (b : Nat) (ys : List Nat) : Nat := ys.foldl Nat.min b

/-- Python `max` on the non-empty list `b :: ys`. -/
def pyMaxNat (b : Nat) (ys : List Nat) : Nat := ys.foldl Nat.max b

/-- First-occurrence deduplication (elements already in `seen` are
dropped); models iteration order over the keys of a Python `dict` or over
a `set` built by insertion. -/
def dedupFirstAux : List String → List String → List String
  | [], _ => []
  | x :: xs, seen =>
    if x ∈ seen then dedupFirstAux xs seen else x :: dedupFirstAux xs (x :: seen)

/-- `list(set(l))`, represented in first-occurrence order (the spec demands
no particular order). -/
def dedupFirst (l : List String) : List String := dedupFirstAux l []

/-- Model of `IncidentGrouper._create_incident` (lines 87-111).  `none`
models the `ValueError` that `min([])` raises on an empty record list. -/
def create_incident (incident_id : Nat) (blk : String) (logs : List LogRecord) :
    Option Incident :=
  match logs with
  | [] => none
  | l0 :: rest =>
    let start_time := pyMinNat l0.timestamp (rest.map (·.timestamp))
    let end_time := pyMaxNat l0.timestamp (rest.map (·.timestamp))
    some {
      incident_id := incident_id
      block_id := blk
      start_time := start_time
      end_time := end_time
      duration_seconds := (end_time : Int) - (start_time : Int)
      num_logs := (l0 :: rest).length
      severity := pyMaxBy l0.level (rest.map (·.level))
      components := dedupFirst ((l0 :: rest).map (·.component))
      logs := l0 :: rest }

/-- Stable insertion of `r` into a timestamp-sorted list: `r` goes in front
of the first element whose timestamp is not strictly smaller. -/
def insertSorted (r : LogRecord) : List LogRecord → List LogRecord
  | [] => [r]
  | x :: xs =>
    if x.timestamp < r.timestamp then x :: insertSorted r xs else r :: x :: xs

/-- Stable sort by timestamp, modelling the stable Python
`block_logs.sort(key=lambda x: x[timestamp])`; any stable sort on the same
key computes the same list. -/
def insertionSort : List LogRecord → List LogRecord
  | [] => []
  | x :: xs => insertSorted x (insertionSort xs)

/-- The time-window loop of `group_incidents` (lines 59-75) after the first
record of a run opened the current incident: `anchor` is
`current_start_time`, `cur` is `current_incident`.  A record within `w`
seconds of the anchor is appended; otherwise the current incident is closed
and a new one opens anchored at that record. -/
def clusterFrom (w : Int) (anchor : Nat) (cur : List LogRecord) :
    List LogRecord → List (List LogRecord)
  | [] => [cur]
  | r :: rs =>
    if (r.timestamp : Int) - (anchor : Int) ≤ w then
      clusterFrom w anchor (cur ++ [r]) rs
    else
      cur :: clusterFrom w r.timestamp [r] rs

/-- Sort the logs of one block and split them into time-window clusters
(lines 51-75 for a single `block_id`). -/
def clusterBlock (w : Int) (block_logs : List LogRecord) : List (List LogRecord) :=
  match insertionSort block_logs with
  | [] => []
  | r :: rs => clusterFrom w r.timestamp [r] rs

/-- Seconds in `timedelta(minutes=m)`. -/
def time_window (minutes : Nat) : Int := 60 * (minutes : Int)

/-- Turn the per-block clusters into numbered incidents: `incident_id`
starts at 1 and increments each time an incident is appended (lines 71-80).
The `none` branch mirrors the `if current_incident:` guard: nothing is
appended and the counter does not move. -/
def numberClusters : List (String × List LogRecord) → Nat → List Incident
  | [], _ => []
  | (k, c) :: rest, nextId =>
    match create_incident nextId k c with
    | some inc => inc :: numberClusters rest (nextId + 1)
    | none => numberClusters rest nextId

/-- The `(block_id, cluster)` pairs produced by iterating the `blocks`
dictionary (insertion order = first occurrence of each key among
`logs_with_blocks`, the list of each key in input order) and clustering
the logs of each block. -/
def blockPairs (w : Int) (lwb : List LogRecord) : List (String × List LogRecord) :=
  List.flatten ((dedupFirstAux (lwb.map keyOf) []).map fun k =>
    (clusterBlock w (lwb.filter (fun r => keyOf r == k))).map fun c => (k, c))

/-- Model of `IncidentGrouper.group_incidents` (lines 26-85) with window
`time_window_minutes` minutes.  The final `if` models the summary print on
line 83, `len(logs_with_blocks)/len(incidents)`: with zero incidents it
raises `ZeroDivisionError` (`none`); otherwise the incident list is
returned. -/
def group_incidents (time_window_minutes : Nat) (logs : List LogRecord) :
    Option (List Incident) :=
  if (numberClusters
      (blockPairs (time_window time_window_minutes) (logs.filter hasBlockId)) 1).length = 0
  then none
  else some (numberClusters
    (blockPairs (time_window time_window_minutes) (logs.filter hasBlockId)) 1)

/-- The statistics dictionary of `get_incident_stats` for a non-empty
incident list; averages use exact rational division for the Python `/`. -/
structure Stats where
  total_incidents : Nat
  total_logs : Nat
  avg_logs_per_incident : Rat
  min_logs_per_incident : Nat
  max_logs_per_incident : Nat
  avg_duration_seconds : Rat
  severity_distribution : List (String × Nat)
  deriving Repr, DecidableEq

/-- Model of `IncidentGrouper.get_incident_stats` (lines 119-139).  `none`
models the empty dictionary returned for an empty incident list — an
empty/neutral result, not an exception. -/
def get_incident_stats (incidents : List Incident) : Option Stats :=
  match incidents with
  | [] => none
  | inc0 :: rest =>
    some {
      total_incidents := (inc0 :: rest).length
      total_logs := ((inc0 :: rest).map (·.num_logs)).sum
      avg_logs_per_incident :=
        (((((inc0 :: rest).map (·.num_logs)).sum : Nat) : Rat)) /
          (((inc0 :: rest).length : Nat) : Rat)
      min_logs_per_incident := pyMinNat inc0.num_logs (rest.map (·.num_logs))
      max_logs_per_incident := pyMaxNat inc0.num_logs (rest.map (·.num_logs))
      avg_duration_seconds :=
        ((((inc0 :: rest).map (·.duration_seconds)).sum : Int) : Rat) /
          ((((inc0 :: rest).map (·.duration_seconds)).length : Nat) : Rat)
      severity_distribution := (dedupFirst ((inc0 :: rest).map (·.severity))).map
        fun s => (s, ((inc0 :: rest).map (·.severity)).count s) }

/-! ### Sorting lemmas -/

/-- Non-decreasing timestamp order on records. -/
abbrev tsLE (a b : LogRecord) : Prop := a.timestamp ≤ b.timestamp

theorem insertSorted_perm (r : LogRecord) (l : List LogRecord) :
    (insertSorted r l).Perm (r :: l) := by
  induction l with
  | nil => simp [insertSorted]
  | cons x xs ih =>
    by_cases h : x.timestamp < r.timestamp
    · simp only [insertSorted, if_pos h]
      exact (ih.cons x).trans (List.Perm.swap r x xs)
    · simp [insertSorted, if_neg h]

theorem mem_insertSorted {y r : LogRecord} {l : List LogRecord} :
    y ∈ insertSorted r l ↔ y = r ∨ y ∈ l := by
  simpa using (insertSorted_perm r l).mem_iff

theorem insertSorted_sorted {r : LogRecord} {l : List LogRecord}
    (h : l.Pairwise tsLE) : (insertSorted r l).Pairwise tsLE := by
  induction l with
  | nil => simp [insertSorted]
  | cons x xs ih =>
    rcases List.pairwise_cons.1 h with ⟨hx, hxs⟩
    by_cases hlt : x.timestamp < r.timestamp
    · simp only [insertSorted, if_pos hlt]
      refine List.pairwise_cons.2 ⟨?_, ih hxs⟩
      intro a ha
      rcases mem_insertSorted.1 ha with rfl | ha
      · exact le_of_lt hlt
      · exact hx a ha
    · simp only [insertSorted, if_neg hlt]
      refine List.pairwise_cons.2 ⟨?_, h⟩
      intro a ha
      rcases List.mem_cons.1 ha with rfl | ha
      · exact le_of_not_lt hlt
      · exact le_trans (le_of_not_lt hlt) (hx a ha)

theorem insertionSort_perm (l : List LogRecord) : (insertionSort l).Perm l := by
  induction l with
  | nil => exact List.Perm.refl _
  | cons x xs ih => exact (insertSorted_perm x (insertionSort xs)).trans (ih.cons x)

theorem insertionSort_sorted (l : List LogRecord) :
    (insertionSort l).Pairwise tsLE := by
  induction l with
  | nil => simp [insertionSort]
  | cons x xs ih => exact insertSorted_sorted ih

theorem filter_insertSorted_pos {r : LogRecord} {t : Nat} (l : List LogRecord)
    (h : r.timestamp = t) :
    (insertSorted r l).filter (fun x => x.timestamp == t) =
      r :: l.filter (fun x => x.timestamp == t) := by
  subst h
  induction l with
  | nil => simp [insertSorted]
  | cons x xs ih =>
    by_cases hlt : x.timestamp < r.timestamp
    · have hx : (x.timestamp == r.timestamp) = false := by
        simp [Nat.ne_of_lt hlt]
      simp [insertSorted, if_pos hlt, List.filter_cons, hx, ih]
    · simp [insertSorted, if_neg hlt, List.filter_cons]

theorem filter_insertSorted_neg {r : LogRecord} {t : Nat} (l : List LogRecord)
    (h : r.timestamp ≠ t) :
    (insertSorted r l).filter (fun x => x.timestamp == t) =
      l.filter (fun x => x.timestamp == t) := by
  induction l with
  | nil => simp [insertSorted, h]
  | cons x xs ih =>
    by_cases hlt : x.timestamp < r.timestamp
    · simp [insertSorted, if_pos hlt, List.filter_cons, ih]
    · simp [insertSorted, if_neg hlt, List.filter_cons, h]

/-- Stability of the modelled sort: for every timestamp value, the records
carrying it keep their incoming relative order. -/
theorem insertionSort_stable (l : List LogRecord) (t : Nat) :
    (insertionSort l).filter (fun x => x.timestamp == t) =
      l.filter (fun x => x.timestamp == t) := by
  induction l with
  | nil => rfl
  | cons x xs ih =>
    by_cases h : x.timestamp = t
    · rw [insertionSort, filter_insertSorted_pos _ h, ih]
      simp [List.filter_cons, h]
    · rw [insertionSort, filter_insertSorted_neg _ h, ih]
      simp [List.filter_cons, h]

/-! ### Python `min`/`max` fold lemmas -/

theorem natMin_ite (a b : Nat) : Nat.min a b = if a ≤ b then a else b := rfl

theorem natMax_ite (a b : Nat) : Nat.max a b = if a ≤ b then b else a := rfl

theorem natMin_choice (a b : Nat) : Nat.min a b = a ∨ Nat.min a b = b := by
  rw [natMin_ite]
  split <;> simp

theorem natMax_choice (a b : Nat) : Nat.max a b = a ∨ Nat.max a b = b := by
  rw [natMax_ite]
  split <;> simp

theorem natMin_eq_left {a b : Nat} (h : a ≤ b) : Nat.min a b = a := by
  rw [natMin_ite, if_pos h]

theorem pyMinNat_cons (b y : Nat) (ys : List Nat) :
    pyMinNat b (y :: ys) = pyMinNat (Nat.min b y) ys := rfl

theorem pyMinNat_le (b : Nat) (ys : List Nat) : ∀ x ∈ b :: ys, pyMinNat b ys ≤ x := by
  induction ys generalizing b with
  | nil =>
    intro x hx
    rcases List.mem_cons.1 hx with rfl | hx
    · exact le_refl _
    · simp at hx
  | cons y ys ih =>
    intro x hx
    have hself : pyMinNat (Nat.min b y) ys ≤ Nat.min b y :=
      ih (Nat.min b y) _ (List.mem_cons_self _ _)
    rw [pyMinNat_cons]
    rcases List.mem_cons.1 hx with rfl | hx
    · exact le_trans hself (Nat.min_le_left _ _)
    rcases List.mem_cons.1 hx with rfl | hx
    · exact le_trans hself (Nat.min_le_right _ _)
    · exact ih (Nat.min b y) x (List.mem_cons_of_mem _ hx)

theorem pyMinNat_mem (b : Nat) (ys : List Nat) : pyMinNat b ys ∈ b :: ys := by
  induction ys generalizing b with
  | nil => simp [pyMinNat]
  | cons y ys ih =>
    rw [pyMinNat_cons]
    rcases List.mem_cons.1 (ih (Nat.min b y)) with h | h
    · rcases natMin_choice b y with hm | hm
      · rw [h, hm]; exact List.mem_cons_self _ _
      · rw [h, hm]; exact List.mem_cons_of_mem _ (List.mem_cons_self _ _)
    · exact List.mem_cons_of_mem _ (List.mem_cons_of_mem _ h)

theorem pyMinNat_eq_of_le {b : Nat} {ys : List Nat} (h : ∀ y ∈ ys, b ≤ y) :
    pyMinNat b ys = b := by
  induction ys generalizing b with
  | nil => rfl
  | cons y ys ih =>
    rw [pyMinNat_cons, natMin_eq_left (h y (List.mem_cons_self _ _))]
    exact ih fun z hz => h z (List.mem_cons_of_mem _ hz)

theorem pyMaxNat_cons (b y : Nat) (ys : List Nat) :
    pyMaxNat b (y :: ys) = pyMaxNat (Nat.max b y) ys := rfl

theorem pyMaxNat_ge (b : Nat) (ys : List Nat) : ∀ x ∈ b :: ys, x ≤ pyMaxNat b ys := by
  induction ys generalizing b with
  | nil =>
    intro x hx
    rcases List.mem_cons.1 hx with rfl | hx
    · exact le_refl _
    · simp at hx
  | cons y ys ih =>
    intro x hx
    have hself : Nat.max b y ≤ pyMaxNat (Nat.max b y) ys :=
      ih (Nat.max b y) _ (List.mem_cons_self _ _)
    rw [pyMaxNat_cons]
    rcases List.mem_cons.1 hx with rfl | hx
    · exact le_trans (Nat.le_max_left _ _) hself
    rcases List.mem_cons.1 hx with rfl | hx
    · exact le_trans (Nat.le_max_right _ _) hself
    · exact ih (Nat.max b y) x (List.mem_cons_of_mem _ hx)

theorem pyMaxNat_mem (b : Nat) (ys : List Nat) : pyMaxNat b ys ∈ b :: ys := by
  induction ys generalizing b with
  | nil => simp [pyMaxNat]
  | cons y ys ih =>
    rw [pyMaxNat_cons]
    rcases List.mem_cons.1 (ih (Nat.max b y)) with h | h
    · rcases natMax_choice b y with hm | hm
      · rw [h, hm]; exact List.mem_cons_self _ _
      · rw [h, hm]; exact List.mem_cons_of_mem _ (List.mem_cons_self _ _)
    · exact List.mem_cons_of_mem _ (List.mem_cons_of_mem _ h)

/-! ### `max(..., key=...)` lemmas -/

theorem pyMaxBy_cons (b y : String) (ys : List String) :
    pyMaxBy b (y :: ys) = pyMaxBy (pickWorse b y) ys := rfl

theorem pickWorse_of_zero {b y : String} (h : level_priority y = 0) :
    pickWorse b y = b := by
  unfold pickWorse
  rw [if_neg]
  omega

/-- The max-by-key scan returns an element of maximal priority, and it is
the first element of the list attaining that priority. -/
theorem pyMaxBy_spec (b : String) (ys : List String) :
    (∀ x ∈ b :: ys, level_priority x ≤ level_priority (pyMaxBy b ys)) ∧
      (b :: ys).find? (fun l => level_priority l == level_priority (pyMaxBy b ys)) =
        some (pyMaxBy b ys) := by
  induction ys generalizing b with
  | nil =>
    refine ⟨?_, ?_⟩
    · intro x hx
      rcases List.mem_cons.1 hx with rfl | hx
      · exact le_refl _
      · simp at hx
    · simp [pyMaxBy, List.find?]
  | cons y ys ih =>
    rw [pyMaxBy_cons]
    rcases ih (pickWorse b y) with ⟨hle, hfind⟩
    by_cases hgt : level_priority y > level_priority b
    · have hpw : pickWorse b y = y := if_pos hgt
      rw [hpw] at hle hfind ⊢
      have hyle : level_priority y ≤ level_priority (pyMaxBy y ys) :=
        hle y (List.mem_cons_self _ _)
      refine ⟨?_, ?_⟩
      · intro x hx
        rcases List.mem_cons.1 hx with rfl | hx
        · exact le_trans (le_of_lt hgt) hyle
        · exact hle x hx
      · have hb : (level_priority b == level_priority (pyMaxBy y ys)) = false := by
          simp only [beq_eq_false_iff_ne, ne_eq]
          omega
        simp only [List.find?_cons, hb]
        exact hfind
    · have hpw : pickWorse b y = b := if_neg hgt
      rw [hpw] at hle hfind ⊢
      have hyb : level_priority y ≤ level_priority b := le_of_not_lt hgt
      have hble : level_priority b ≤ level_priority (pyMaxBy b ys) :=
        hle b (List.mem_cons_self _ _)
      refine ⟨?_, ?_⟩
      · intro x hx
        rcases List.mem_cons.1 hx with rfl | hx
        · exact hble
        rcases List.mem_cons.1 hx with rfl | hx
        · exact le_trans hyb hble
        · exact hle x (List.mem_cons_of_mem _ hx)
      · by_cases heq : level_priority b = level_priority (pyMaxBy b ys)
        · have hres : pyMaxBy b ys = b := by
            simp only [List.find?_cons, heq, beq_self_eq_true] at hfind
            exact (Option.some.inj hfind).symm
          simp only [List.find?_cons, heq, beq_self_eq_true, hres]
        · have hbne : (level_priority b == level_priority (pyMaxBy b ys)) = false := by
            simp only [beq_eq_false_iff_ne, ne_eq]
            exact heq
          have hyne : (level_priority y == level_priority (pyMaxBy b ys)) = false := by
            simp only [beq_eq_false_iff_ne, ne_eq]
            omega
          simp only [List.find?_cons, hbne] at hfind
          simp only [List.find?_cons, hbne, hyne]
          exact hfind

theorem pyMaxBy_mem (b : String) (ys : List String) : pyMaxBy b ys ∈ b :: ys :=
  List.mem_of_find?_eq_some (pyMaxBy_spec b ys).2

/-! ### First-occurrence deduplication lemmas -/

theorem mem_dedupFirstAux {y : String} :
    ∀ {l seen : List String}, y ∈ dedupFirstAux l seen ↔ y ∈ l ∧ y ∉ seen := by
  intro l
  induction l with
  | nil => intro seen; simp [dedupFirstAux]
  | cons x xs ih =>
    intro seen
    by_cases hx : x ∈ seen
    · rw [dedupFirstAux, if_pos hx, ih]
      constructor
      · rintro ⟨h1, h2⟩
        exact ⟨List.mem_cons_of_mem _ h1, h2⟩
      · rintro ⟨h1, h2⟩
        rcases List.mem_cons.1 h1 with rfl | h1
        · exact absurd hx h2
        · exact ⟨h1, h2⟩
    · rw [dedupFirstAux, if_neg hx]
      constructor
      · intro hmem
        rcases List.mem_cons.1 hmem with rfl | hmem
        · exact ⟨List.mem_cons_self _ _, hx⟩
        · rcases ih.1 hmem with ⟨h1, h2⟩
          exact ⟨List.mem_cons_of_mem _ h1,
            fun hs => h2 (List.mem_cons_of_mem _ hs)⟩
      · rintro ⟨h1, h2⟩
        rcases List.mem_cons.1 h1 with rfl | h1
        · exact List.mem_cons_self _ _
        · by_cases hyx : y = x
          · subst hyx
            exact List.mem_cons_self _ _
          · refine List.mem_cons_of_mem _ (ih.2 ⟨h1, ?_⟩)
            intro hs
            rcases List.mem_cons.1 hs with h | h
            · exact hyx h
            · exact h2 h

theorem nodup_dedupFirstAux : ∀ (l seen : List String), (dedupFirstAux l seen).Nodup := by
  intro l
  induction l with
  | nil => intro seen; simp [dedupFirstAux]
  | cons x xs ih =>
    intro seen
    by_cases hx : x ∈ seen
    · rw [dedupFirstAux, if_pos hx]
      exact ih seen
    · rw [dedupFirstAux, if_neg hx]
      refine List.nodup_cons.2 ⟨fun hmem => ?_, ih _⟩
      exact (mem_dedupFirstAux.1 hmem).2 (List.mem_cons_self _ _)

/-- Keys already marked as seen do not change the deduplicated key list
when their occurrences are filtered away. -/
theorem dedupFirstAux_filter {k : String} :
    ∀ (l seen : List String), k ∈ seen →
      dedupFirstAux (l.filter (fun x => !(x == k))) seen = dedupFirstAux l seen := by
  intro l
  induction l with
  | nil => intro seen _; rfl
  | cons x xs ih =>
    intro seen hk
    by_cases hxk : x = k
    · subst hxk
      have hbeq : (!(x == x)) = false := by simp
      rw [List.filter_cons, hbeq, if_neg (by simp), dedupFirstAux, if_pos hk]
      exact ih seen hk
    · have hbeq : (!(x == k)) = true := by simp [hxk]
      rw [List.filter_cons, hbeq, if_pos rfl]
      by_cases hseen : x ∈ seen
      · rw [dedupFirstAux, if_pos hseen, dedupFirstAux, if_pos hseen]
        exact ih seen hk
      · rw [dedupFirstAux, if_neg hseen, dedupFirstAux, if_neg hseen,
          ih (x :: seen) (List.mem_cons_of_mem _ hk)]

/-! ### Time-window clustering lemmas -/

theorem clusterFrom_flatten (w : Int) :
    ∀ (rest : List LogRecord) (anchor : Nat) (cur : List LogRecord),
      (clusterFrom w anchor cur rest).flatten = cur ++ rest := by
  intro rest
  induction rest with
  | nil =>
    intro anchor cur
    simp [clusterFrom]
  | cons r rs ih =>
    intro anchor cur
    by_cases h : (r.timestamp : Int) - (anchor : Int) ≤ w
    · rw [clusterFrom, if_pos h, ih]
      simp
    · rw [clusterFrom, if_neg h, List.flatten_cons, ih]
      simp

theorem clusterFrom_ne_nil (w : Int) :
    ∀ (rest : List LogRecord) (anchor : Nat) (cur : List LogRecord), cur ≠ [] →
      ∀ c ∈ clusterFrom w anchor cur rest, c ≠ [] := by
  intro rest
  induction rest with
  | nil =>
    intro anchor cur hcur c hc
    rw [clusterFrom] at hc
    rcases List.mem_cons.1 hc with rfl | hc
    · exact hcur
    · simp at hc
  | cons r rs ih =>
    intro anchor cur hcur c hc
    by_cases h : (r.timestamp : Int) - (anchor : Int) ≤ w
    · rw [clusterFrom, if_pos h] at hc
      exact ih anchor (cur ++ [r]) (by simp) c hc
    · rw [clusterFrom, if_neg h] at hc
      rcases List.mem_cons.1 hc with rfl | hc
      · exact hcur
      · exact ih r.timestamp [r] (by simp) c hc

/-- Package the anchor-headed current incident: its head record carries the
minimum timestamp and every member is within the window of it. -/
theorem head_min_spec {cur : List LogRecord} {anchor : Nat} {w : Int}
    (hhead : cur.head?.map LogRecord.timestamp = some anchor)
    (hmem : ∀ r ∈ cur, anchor ≤ r.timestamp ∧
      (r.timestamp : Int) - (anchor : Int) ≤ w) :
    ∃ a, cur.head? = some a ∧
      ∀ r ∈ cur, a.timestamp ≤ r.timestamp ∧
        (r.timestamp : Int) - (a.timestamp : Int) ≤ w := by
  cases cur with
  | nil => simp at hhead
  | cons h t =>
    refine ⟨h, rfl, ?_⟩
    have hts : h.timestamp = anchor := by simpa using hhead
    rw [hts]
    exact hmem

/-- Invariant of the windowing loop: starting from a sorted remainder whose
timestamps dominate the anchor and a non-empty current incident headed by
the anchor record with all members inside the window, every cluster the
loop emits is sorted and all its members lie within `w` seconds of its head
record, which carries the minimum timestamp of the cluster. -/
theorem clusterFrom_inv (w : Int) (hw : 0 ≤ w) :
    ∀ (rest : List LogRecord) (anchor : Nat) (cur : List LogRecord),
      rest.Pairwise tsLE →
      (∀ r ∈ rest, anchor ≤ r.timestamp) →
      (∀ r ∈ cur, ∀ x ∈ rest, r.timestamp ≤ x.timestamp) →
      cur.Pairwise tsLE →
      cur.head?.map LogRecord.timestamp = some anchor →
      (∀ r ∈ cur, anchor ≤ r.timestamp ∧
        (r.timestamp : Int) - (anchor : Int) ≤ w) →
      ∀ c ∈ clusterFrom w anchor cur rest,
        c.Pairwise tsLE ∧
          ∃ a, c.head? = some a ∧
            ∀ r ∈ c, a.timestamp ≤ r.timestamp ∧
              (r.timestamp : Int) - (a.timestamp : Int) ≤ w := by
  intro rest
  induction rest with
  | nil =>
    intro anchor cur _ _ _ hsorted hhead hmem c hc
    rw [clusterFrom] at hc
    rcases List.mem_cons.1 hc with rfl | hc
    · exact ⟨hsorted, head_min_spec hhead hmem⟩
    · simp at hc
  | cons r rs ih =>
    intro anchor cur hrest hanchor hcurle hsorted hhead hmem c hc
    rcases List.pairwise_cons.1 hrest with ⟨hr_rs, hrs⟩
    by_cases h : (r.timestamp : Int) - (anchor : Int) ≤ w
    · rw [clusterFrom, if_pos h] at hc
      refine ih anchor (cur ++ [r]) hrs
        (fun x hx => hanchor x (List.mem_cons_of_mem _ hx)) ?_ ?_ ?_ ?_ c hc
      · intro a ha x hx
        rcases List.mem_append.1 ha with ha | ha
        · exact hcurle a ha x (List.mem_cons_of_mem _ hx)
        · rcases List.mem_singleton.1 ha with rfl
          exact hr_rs x hx
      · refine List.pairwise_append.2 ⟨hsorted, List.pairwise_singleton _ _, ?_⟩
        intro a ha b hb
        rcases List.mem_singleton.1 hb with rfl
        exact hcurle a ha b (List.mem_cons_self _ _)
      · rw [List.head?_append]
        cases cur with
        | nil => simp at hhead
        | cons h0 t => simpa using hhead
      · intro a ha
        rcases List.mem_append.1 ha with ha | ha
        · exact hmem a ha
        · rcases List.mem_singleton.1 ha with rfl
          exact ⟨hanchor a (List.mem_cons_self _ _), h⟩
    · rw [clusterFrom, if_neg h] at hc
      rcases List.mem_cons.1 hc with rfl | hc
      · exact ⟨hsorted, head_min_spec hhead hmem⟩
      · refine ih r.timestamp [r] hrs hr_rs ?_
          (List.pairwise_singleton _ _) (by simp) ?_ c hc
        · intro a ha x hx
          rcases List.mem_singleton.1 ha with rfl
          exact hr_rs x hx
        · intro a ha
          rcases List.mem_singleton.1 ha with rfl
          exact ⟨le_refl _, by simpa using hw⟩

theorem clusterBlock_flatten (w : Int) (bl : List LogRecord) :
    (clusterBlock w bl).flatten = insertionSort bl := by
  unfold clusterBlock
  cases hs : insertionSort bl with
  | nil => rfl
  | cons r rs => simpa using clusterFrom_flatten w rs r.timestamp [r]

theorem clusterBlock_ne_nil (w : Int) (bl : List LogRecord) :
    ∀ c ∈ clusterBlock w bl, c ≠ [] := by
  unfold clusterBlock
  cases hs : insertionSort bl with
  | nil => simp
  | cons r rs => exact clusterFrom_ne_nil w rs r.timestamp [r] (by simp)

/-- Every cluster produced for one block is sorted and window-conformant
relative to its head record, which has the minimum timestamp. -/
theorem clusterBlock_inv {w : Int} (hw : 0 ≤ w) (bl : List LogRecord) :
    ∀ c ∈ clusterBlock w bl,
      c.Pairwise tsLE ∧
        ∃ a, c.head? = some a ∧
          ∀ r ∈ c, a.timestamp ≤ r.timestamp ∧
            (r.timestamp : Int) - (a.timestamp : Int) ≤ w := by
  unfold clusterBlock
  cases hs : insertionSort bl with
  | nil => simp
  | cons r rs =>
    have hsorted : (r :: rs).Pairwise tsLE := hs ▸ insertionSort_sorted bl
    rcases List.pairwise_cons.1 hsorted with ⟨hr_rs, hrs⟩
    refine clusterFrom_inv w hw rs r.timestamp [r] hrs hr_rs ?_
      (List.pairwise_singleton _ _) (by simp) ?_
    · intro a ha x hx
      rcases List.mem_singleton.1 ha with rfl
      exact hr_rs x hx
    · intro a ha
      rcases List.mem_singleton.1 ha with rfl
      exact ⟨le_refl _, by simpa using hw⟩

/-! ### Aggregation and numbering lemmas -/

theorem create_incident_some (id : Nat) (k : String) (l0 : LogRecord)
    (rest : List LogRecord) :
    create_incident id k (l0 :: rest) = some {
      incident_id := id
      block_id := k
      start_time := pyMinNat l0.timestamp (rest.map (·.timestamp))
      end_time := pyMaxNat l0.timestamp (rest.map (·.timestamp))
      duration_seconds := (pyMaxNat l0.timestamp (rest.map (·.timestamp)) : Int)
        - (pyMinNat l0.timestamp (rest.map (·.timestamp)) : Int)
      num_logs := (l0 :: rest).length
      severity := pyMaxBy l0.level (rest.map (·.level))
      components := dedupFirst ((l0 :: rest).map (·.component))
      logs := l0 :: rest } := rfl

theorem numberClusters_mem :
    ∀ (pairs : List (String × List LogRecord)) (n : Nat) (inc : Incident),
      inc ∈ numberClusters pairs n →
      ∃ k c, (k, c) ∈ pairs ∧ ∃ id, create_incident id k c = some inc := by
  intro pairs
  induction pairs with
  | nil =>
    intro n inc h
    simp [numberClusters] at h
  | cons p rest ih =>
    intro n inc h
    obtain ⟨k, c⟩ := p
    cases hc : create_incident n k c with
    | some i =>
      rw [numberClusters, hc] at h
      rcases List.mem_cons.1 h with rfl | h
      · exact ⟨k, c, List.mem_cons_self _ _, n, hc⟩
      · obtain ⟨k', c', hm, id, hcr⟩ := ih _ _ h
        exact ⟨k', c', List.mem_cons_of_mem _ hm, id, hcr⟩
    | none =>
      rw [numberClusters, hc] at h
      obtain ⟨k', c', hm, id, hcr⟩ := ih _ _ h
      exact ⟨k', c', List.mem_cons_of_mem _ hm, id, hcr⟩

theorem numberClusters_logs :
    ∀ (pairs : List (String × List LogRecord)) (n : Nat),
      (∀ p ∈ pairs, p.2 ≠ ([] : List LogRecord)) →
      ((numberClusters pairs n).map Incident.logs).flatten =
        (pairs.map Prod.snd).flatten := by
  intro pairs
  induction pairs with
  | nil =>
    intro n _
    rfl
  | cons p rest ih =>
    intro n hne
    obtain ⟨k, c⟩ := p
    cases c with
    | nil => exact absurd rfl (hne (k, []) (List.mem_cons_self _ _))
    | cons l0 ls =>
      rw [numberClusters, create_incident_some]
      simp only [List.map_cons, List.flatten_cons]
      rw [ih (n + 1) (fun p hp => hne p (List.mem_cons_of_mem _ hp))]

/-! ### Partitioning permutation -/

theorem map_keyOf_filter (rs : List LogRecord) (k : String) :
    (rs.filter (fun r => !(keyOf r == k))).map keyOf =
      (rs.map keyOf).filter (fun s => !(s == k)) := by
  induction rs with
  | nil => rfl
  | cons x xs ih =>
    by_cases hx : keyOf x = k
    · simp [List.filter_cons, hx, ih]
    · simp [List.filter_cons, hx, ih]

theorem filter_keyOf_of_ne {rs : List LogRecord} {k k' : String} (h : k' ≠ k) :
    (rs.filter (fun r => !(keyOf r == k))).filter (fun r => keyOf r == k') =
      rs.filter (fun r => keyOf r == k') := by
  rw [List.filter_filter]
  refine List.filter_congr ?_
  intro x _
  by_cases hx : keyOf x = k'
  · simp [hx, h]
  · simp [hx]

/-- Grouping by key partitions the record list: concatenating the per-key
filters over the first-occurrence key list permutes the original list. -/
theorem partition_perm :
    ∀ (n : Nat) (l : List LogRecord) (seen : List String), l.length ≤ n →
      (∀ r ∈ l, keyOf r ∉ seen) →
      l.Perm (((dedupFirstAux (l.map keyOf) seen).map fun k =>
        l.filter (fun r => keyOf r == k)).flatten) := by
  intro n
  induction n with
  | zero =>
    intro l seen hlen _
    have hnil : l = [] := List.length_eq_zero.1 (Nat.le_zero.1 hlen)
    subst hnil
    exact List.Perm.refl _
  | succ n ih =>
    intro l seen hlen hseen
    cases l with
    | nil => exact List.Perm.refl _
    | cons r rs =>
      have hk : keyOf r ∉ seen := hseen r (List.mem_cons_self _ _)
      have hkeys : dedupFirstAux ((r :: rs).map keyOf) seen =
          keyOf r :: dedupFirstAux
            ((rs.filter (fun x => !(keyOf x == keyOf r))).map keyOf)
            (keyOf r :: seen) := by
        rw [List.map_cons, dedupFirstAux, if_neg hk, map_keyOf_filter,
          dedupFirstAux_filter _ _ (List.mem_cons_self _ _)]
      rw [hkeys, List.map_cons, List.flatten_cons]
      have hhead : (r :: rs).filter (fun x => keyOf x == keyOf r) =
          r :: rs.filter (fun x => keyOf x == keyOf r) := by
        rw [List.filter_cons]
        simp
      set rs' := rs.filter (fun x => !(keyOf x == keyOf r)) with hrs'
      have htail : ∀ k' ∈ dedupFirstAux (rs'.map keyOf) (keyOf r :: seen),
          (r :: rs).filter (fun x => keyOf x == k') =
            rs'.filter (fun x => keyOf x == k') := by
        intro k' hk'
        have hne : k' ≠ keyOf r := by
          intro heq
          exact (mem_dedupFirstAux.1 hk').2 (heq ▸ List.mem_cons_self _ _)
        rw [List.filter_cons]
        have : (keyOf r == k') = false := by
          simp only [beq_eq_false_iff_ne, ne_eq]
          exact fun heq => hne heq.symm
        rw [this, if_neg (by simp)]
        rw [hrs', filter_keyOf_of_ne hne]
      have hperm' : rs'.Perm ((dedupFirstAux (rs'.map keyOf)
          (keyOf r :: seen)).map fun k =>
            rs'.filter (fun x => keyOf x == k)).flatten := by
        refine ih rs' (keyOf r :: seen) ?_ ?_
        · calc rs'.length ≤ rs.length := List.length_filter_le _ _
            _ ≤ n := Nat.le_of_succ_le_succ hlen
        · intro x hx
          rcases List.mem_filter.1 hx with ⟨hxrs, hxk⟩
          intro hmem
          rcases List.mem_cons.1 hmem with heq | hmem
          · rw [heq] at hxk
            simp at hxk
          · exact hseen x (List.mem_cons_of_mem _ hxrs) hmem
      have hmapeq : (dedupFirstAux (rs'.map keyOf) (keyOf r :: seen)).map
            (fun k => (r :: rs).filter (fun x => keyOf x == k)) =
          (dedupFirstAux (rs'.map keyOf) (keyOf r :: seen)).map
            (fun k => rs'.filter (fun x => keyOf x == k)) :=
        List.map_congr_left htail
      rw [hhead, hmapeq]
      have h1 : rs.Perm (rs.filter (fun x => keyOf x == keyOf r) ++ rs') :=
        (List.filter_append_perm (fun x => keyOf x == keyOf r) rs).symm
      have h2 : (rs.filter (fun x => keyOf x == keyOf r) ++ rs').Perm
          (rs.filter (fun x => keyOf x == keyOf r) ++
            ((dedupFirstAux (rs'.map keyOf) (keyOf r :: seen)).map fun k =>
              rs'.filter (fun x => keyOf x == k)).flatten) :=
        (List.Perm.refl _).append hperm'
      exact (h1.trans h2).cons r

/-! ### Assembling `group_incidents` -/

theorem blockPairs_mem {w : Int} {lwb : List LogRecord} {k : String}
    {c : List LogRecord} (h : (k, c) ∈ blockPairs w lwb) :
    c ∈ clusterBlock w (lwb.filter (fun r => keyOf r == k)) := by
  unfold blockPairs at h
  rcases List.mem_flatten.1 h with ⟨l, hl, hcl⟩
  rcases List.mem_map.1 hl with ⟨k', _, rfl⟩
  rcases List.mem_map.1 hcl with ⟨c', hc', heq⟩
  injection heq with h1 h2
  subst h1
  subst h2
  exact hc'

theorem blockPairs_ne_nil {w : Int} {lwb : List LogRecord} :
    ∀ p ∈ blockPairs w lwb, p.2 ≠ ([] : List LogRecord) := by
  rintro ⟨k, c⟩ hp
  exact clusterBlock_ne_nil w _ c (blockPairs_mem hp)

theorem blockPairs_snd_flatten (w : Int) (lwb : List LogRecord) :
    ((blockPairs w lwb).map Prod.snd).flatten =
      ((dedupFirstAux (lwb.map keyOf) []).map fun k =>
        (clusterBlock w (lwb.filter (fun r => keyOf r == k))).flatten).flatten := by
  unfold blockPairs
  generalize dedupFirstAux (lwb.map keyOf) [] = keys
  induction keys with
  | nil => rfl
  | cons k ks ih =>
    simp only [List.map_cons, List.flatten_cons, List.map_append,
      List.flatten_append, List.map_map]
    rw [← ih]
    congr 1
    simp [Function.comp]

theorem flatten_sort_perm (keys : List String) (g : String → List LogRecord) :
    (List.flatten (keys.map fun k => insertionSort (g k))).Perm
      (List.flatten (keys.map fun k => g k)) := by
  induction keys with
  | nil => exact List.Perm.refl _
  | cons k ks ih =>
    simp only [List.map_cons, List.flatten_cons]
    exact (insertionSort_perm _).append ih

/-- All member records of all numbered incidents, concatenated, permute the
key-bearing input records. -/
theorem grouped_logs_perm (w : Int) (lwb : List LogRecord) :
    (((numberClusters (blockPairs w lwb) 1).map Incident.logs).flatten).Perm lwb := by
  rw [numberClusters_logs _ 1 blockPairs_ne_nil, blockPairs_snd_flatten]
  have h1 : ((dedupFirstAux (lwb.map keyOf) []).map fun k =>
        (clusterBlock w (lwb.filter (fun r => keyOf r == k))).flatten) =
      ((dedupFirstAux (lwb.map keyOf) []).map fun k =>
        insertionSort (lwb.filter (fun r => keyOf r == k))) :=
    List.map_congr_left (fun k _ => clusterBlock_flatten w _)
  rw [h1]
  exact (flatten_sort_perm _ _).trans
    (partition_perm lwb.length lwb [] (le_refl _) (by simp)).symm

theorem group_incidents_eq_some {m : Nat} {logs : List LogRecord}
    {incs : List Incident} (h : group_incidents m logs = some incs) :
    incs = numberClusters (blockPairs (time_window m) (logs.filter hasBlockId)) 1 := by
  unfold group_incidents at h
  by_cases hz : (numberClusters
      (blockPairs (time_window m) (logs.filter hasBlockId)) 1).length = 0
  · rw [if_pos hz] at h
    cases h
  · rw [if_neg hz] at h
    exact (Option.some.inj h).symm

/-- The window is a non-negative number of seconds. -/
theorem time_window_nonneg (m : Nat) : 0 ≤ time_window m := by
  unfold time_window
  positivity

/-- Every incident a successful run returns comes from aggregating one
cluster of one block's sorted records. -/
theorem mem_group_incidents {m : Nat} {logs : List LogRecord}
    {incs : List Incident} (h : group_incidents m logs = some incs)
    {inc : Incident} (hinc : inc ∈ incs) :
    ∃ k c id, c ∈ clusterBlock (time_window m)
        ((logs.filter hasBlockId).filter (fun r => keyOf r == k)) ∧
      create_incident id k c = some inc := by
  rw [group_incidents_eq_some h] at hinc
  obtain ⟨k, c, hp, id, hcr⟩ := numberClusters_mem _ _ _ hinc
  exact ⟨k, c, id, blockPairs_mem hp, hcr⟩

/-- Aggregating a cluster delivered by the clusterer: the incident's logs
are the cluster, they are sorted, the start time is the head (= minimum)
timestamp, and every member is window-conformant. -/
theorem create_incident_of_cluster {w : Int} (hw : 0 ≤ w)
    {bl c : List LogRecord} (hc : c ∈ clusterBlock w bl) {id : Nat}
    {k : String} {inc : Incident} (hcr : create_incident id k c = some inc) :
    inc.logs = c ∧ inc.logs.Pairwise tsLE ∧
      inc.logs.head?.map LogRecord.timestamp = some inc.start_time ∧
      (∀ r ∈ inc.logs, inc.start_time ≤ r.timestamp ∧
        (r.timestamp : Int) - (inc.start_time : Int) ≤ w) := by
  obtain ⟨hsorted, a, hhead, hbounds⟩ := clusterBlock_inv hw bl c hc
  cases c with
  | nil => cases hcr
  | cons l0 ls =>
    have ha : a = l0 := by simpa using hhead.symm
    rw [ha] at hbounds
    rw [create_incident_some] at hcr
    have hinc := (Option.some.inj hcr).symm
    have hstart : pyMinNat l0.timestamp (ls.map (·.timestamp)) = l0.timestamp := by
      refine pyMinNat_eq_of_le ?_
      intro t ht
      rcases List.mem_map.1 ht with ⟨r, hr, rfl⟩
      exact (hbounds r (List.mem_cons_of_mem _ hr)).1
    subst hinc
    refine ⟨rfl, hsorted, ?_, ?_⟩
    · show some l0.timestamp = some (pyMinNat l0.timestamp (ls.map (·.timestamp)))
      rw [hstart]
    · intro r hr
      show pyMinNat l0.timestamp (ls.map (·.timestamp)) ≤ r.timestamp ∧
        (r.timestamp : Int) - (pyMinNat l0.timestamp (ls.map (·.timestamp)) : Int) ≤ w
      rw [hstart]
      exact hbounds r hr

/-! ### Concrete example data

The literal scenario of spec section 8: one correlation key with records at
t = 00:00:00, 00:03:00 and 00:06:30, window = 5 minutes.  Timestamps are
seconds since 00:00:00. -/

def recA : LogRecord := ⟨some "blk_A", 0, "INFO", "DataNode"⟩

def recB : LogRecord := ⟨some "blk_A", 180, "WARN", "DataNode"⟩

def recC : LogRecord := ⟨some "blk_A", 390, "ERROR", "NameNode"⟩

def exampleLogs : List LogRecord := [recA, recB, recC]

def exIncs : List Incident := (group_incidents 5 exampleLogs).getD []

def dummyInc : Incident := ⟨0, "", 0, 0, 0, 0, "", [], []⟩

def exInc3 : Incident := (create_incident 3 "blk_A" exampleLogs).getD dummyInc

/-- Two records whose levels tie at priority 0, the unrecognized label
first in member order. -/
def tieLogs : List LogRecord :=
  [⟨some "blk_B", 0, "TRACE", "DataNode"⟩, ⟨some "blk_B", 10, "DEBUG", "DataNode"⟩]

def dummyStats : Stats := ⟨0, 0, 0, 0, 0, 0, []⟩

def exStats : Stats := (get_incident_stats exIncs).getD dummyStats

def exInc1 : Incident := exIncs.getD 0 dummyInc

/-- A record without a correlation key, excluded by the filter. -/
def recNoKey : LogRecord := ⟨none, 50, "INFO", "FsckHelper"⟩

def c3Logs : List LogRecord := [recA, recNoKey, recB, recC]

def c3Incs : List Incident := (group_incidents 5 c3Logs).getD []

/-! ### Claims -/

/-- C1: processing one key in ascending timestamp order, the clusterer
appends a record to the current incident iff its timestamp minus the
anchor (`current_start_time`) is at most the window, and otherwise closes
the incident and opens a new one anchored at that record; on records at
0 s, 180 s and 390 s with a 5-minute (300 s) window this yields exactly
two incidents, the second anchored at 390 s (00:06:30), even though both
consecutive gaps (180 s and 210 s) are at most the window. -/
theorem claim_C1 :
    (∀ (w : Int) (anchor : Nat) (cur : List LogRecord) (r : LogRecord)
        (rs : List LogRecord),
      clusterFrom w anchor cur (r :: rs) =
        if (r.timestamp : Int) - (anchor : Int) ≤ w then
          clusterFrom w anchor (cur ++ [r]) rs
        else cur :: clusterFrom w r.timestamp [r] rs) ∧
    (group_incidents 5 exampleLogs).map List.length = some 2 ∧
    (group_incidents 5 exampleLogs).map (fun l => l.map Incident.start_time) =
      some [0, 390] ∧
    recB.timestamp - recA.timestamp ≤ 300 ∧
    recC.timestamp - recB.timestamp ≤ 300 :=
  ⟨fun _ _ _ _ _ => rfl, by decide, by decide, by decide, by decide⟩

/-- C9: aggregating an empty record sequence fails fast: the model of
`_create_incident` returns `none` (the `ValueError` raised by `min([])`
before any field of the incident is computed), for every id and key. -/
theorem claim_C9 : ∀ (id : Nat) (k : String), create_incident id k [] = none :=
  fun _ _ => rfl

/-- C5 (failing input): on an empty batch the grouper reaches the summary
print with zero incidents and divides by zero — `group_incidents` does not
complete without failure (`none` = `ZeroDivisionError`), and the statistics
for an empty incident list are the empty dictionary (`none`), which does
not show `total_incidents = 0`. -/
theorem claim_C5_bug :
    (∀ m : Nat, group_incidents m ([] : List LogRecord) = none) ∧
      get_incident_stats ([] : List Incident) = none :=
  ⟨fun _ => rfl, rfl⟩

/-- C2: in every incident of a successful run, every member record lies
within the configured window of `incident.start_time`, and `start_time` is
the minimum member timestamp — the timestamp of the head record, i.e. the
anchor fixed when the incident was opened. -/
theorem claim_C2 {m : Nat} {logs : List LogRecord} {incs : List Incident}
    (h : group_incidents m logs = some incs) :
    ∀ inc ∈ incs,
      (∀ r ∈ inc.logs,
        (r.timestamp : Int) - (inc.start_time : Int) ≤ time_window m) ∧
      (∀ r ∈ inc.logs, inc.start_time ≤ r.timestamp) ∧
      inc.logs.head?.map LogRecord.timestamp = some inc.start_time := by
  intro inc hinc
  obtain ⟨k, c, id, hc, hcr⟩ := mem_group_incidents h hinc
  obtain ⟨-, -, hhead, hbounds⟩ :=
    create_incident_of_cluster (time_window_nonneg m) hc hcr
  exact ⟨fun r hr => (hbounds r hr).2, fun r hr => (hbounds r hr).1, hhead⟩

theorem claim_C2_witness :
    ((recB.timestamp : Int) - (exInc1.start_time : Int) ≤ time_window 5) ∧
      exInc1.start_time ≤ recB.timestamp ∧
      exInc1.logs.head?.map LogRecord.timestamp = some exInc1.start_time :=
  have h := @claim_C2 5 exampleLogs exIncs (by decide) exInc1 (by decide)
  ⟨h.1 recB (by decide), h.2.1 recB (by decide), h.2.2⟩

/-- C3: a successful run partitions the input: the concatenation of all
member records over all incidents is a permutation of exactly the records
with a non-empty `block_id` (so each appears in exactly one incident,
counted with multiplicity), and a record without a non-empty `block_id`
appears in no incident. -/
theorem claim_C3 {m : Nat} {logs : List LogRecord} {incs : List Incident}
    (h : group_incidents m logs = some incs) :
    ((incs.map Incident.logs).flatten).Perm (logs.filter hasBlockId) ∧
      (∀ r ∈ logs, hasBlockId r = false → ∀ inc ∈ incs, r ∉ inc.logs) := by
  have hperm : ((incs.map Incident.logs).flatten).Perm (logs.filter hasBlockId) := by
    rw [group_incidents_eq_some h]
    exact grouped_logs_perm _ _
  refine ⟨hperm, ?_⟩
  intro r _ hbad inc hinc hrin
  have hmem : r ∈ (incs.map Incident.logs).flatten :=
    List.mem_flatten.2 ⟨inc.logs, List.mem_map.2 ⟨inc, hinc, rfl⟩, hrin⟩
  have hfil := hperm.mem_iff.1 hmem
  rcases List.mem_filter.1 hfil with ⟨-, htrue⟩
  rw [hbad] at htrue
  cases htrue

theorem claim_C3_witness :
    ((c3Incs.map Incident.logs).flatten).Perm (c3Logs.filter hasBlockId) ∧
      recNoKey ∉ (c3Incs.getD 0 dummyInc).logs :=
  have h := @claim_C3 5 c3Logs c3Incs (by decide)
  ⟨h.1, h.2 recNoKey (by decide) (by decide) _ (by decide)⟩

/-- C6: in every incident of a successful run the `logs` field is sorted
non-decreasing by timestamp, and the modelled sort is stable — records
with any given timestamp keep their incoming relative order — and a
permutation of its input. -/
theorem claim_C6 {m : Nat} {logs : List LogRecord} {incs : List Incident}
    (h : group_incidents m logs = some incs) :
    (∀ inc ∈ incs, inc.logs.Pairwise tsLE) ∧
      (∀ (l : List LogRecord) (t : Nat),
        (insertionSort l).filter (fun r => r.timestamp == t) =
          l.filter (fun r => r.timestamp == t)) ∧
      (∀ l : List LogRecord, (insertionSort l).Perm l) := by
  refine ⟨?_, insertionSort_stable, insertionSort_perm⟩
  intro inc hinc
  obtain ⟨k, c, id, hc, hcr⟩ := mem_group_incidents h hinc
  exact (create_incident_of_cluster (time_window_nonneg m) hc hcr).2.1

theorem claim_C6_witness :
    exInc1.logs.Pairwise tsLE ∧
      (insertionSort [recB, recA]).filter (fun r => r.timestamp == 0) =
        [recB, recA].filter (fun r => r.timestamp == 0) ∧
      (insertionSort [recB, recA]).Perm [recB, recA] :=
  have h := @claim_C6 5 exampleLogs exIncs (by decide)
  ⟨h.1 exInc1 (by decide), h.2.1 [recB, recA] 0, h.2.2 [recB, recA]⟩

/-- C4: the severity of an aggregated incident is a member level whose
mapped priority is the maximum of the mapped priorities of all member
levels; any label outside the scale maps to priority 0, a priority-0
candidate never replaces the running best in the scan (so it never
overrides a known worse or equal level), and the mapping is total (never a
failure). -/
theorem claim_C4 {id : Nat} {k : String} {logs : List LogRecord}
    {inc : Incident} (h : create_incident id k logs = some inc) :
    inc.severity ∈ logs.map (fun r => r.level) ∧
      (∀ l ∈ logs.map (fun r => r.level),
        level_priority l ≤ level_priority inc.severity) ∧
      (∀ s : String, s ≠ "FATAL" → s ≠ "ERROR" → s ≠ "WARN" → s ≠ "INFO" →
        level_priority s = 0) ∧
      (∀ best y : String, level_priority y = 0 → pickWorse best y = best) := by
  cases logs with
  | nil => cases h
  | cons l0 ls =>
    rw [create_incident_some] at h
    have hinc := (Option.some.inj h).symm
    subst hinc
    obtain ⟨hle, -⟩ := pyMaxBy_spec l0.level (ls.map (·.level))
    refine ⟨?_, ?_, ?_, fun best y hy => pickWorse_of_zero hy⟩
    · have hmem := pyMaxBy_mem l0.level (ls.map (·.level))
      simpa using hmem
    · intro l hl
      apply hle
      simpa using hl
    · intro s h1 h2 h3 h4
      simp [level_priority, h1, h2, h3, h4]

theorem claim_C4_witness :
    exInc3.severity ∈ exampleLogs.map (fun r => r.level) ∧
      level_priority "INFO" ≤ level_priority exInc3.severity ∧
      level_priority "TRACE" = 0 ∧
      pickWorse "ERROR" "TRACE" = "ERROR" :=
  have h := @claim_C4 3 "blk_A" exampleLogs exInc3 (by decide)
  ⟨h.1, h.2.1 "INFO" (by decide),
    h.2.2.1 "TRACE" (by decide) (by decide) (by decide) (by decide),
    h.2.2.2 "ERROR" "TRACE" (by decide)⟩

/-- C10 (implicit): when member levels tie at the maximum priority the
aggregator reports the first level in member order attaining it — the
first match of a priority-equality search is exactly the reported
severity, which also attains the maximum; consequently the unrecognized
label TRACE placed before DEBUG is reported when priority 0 is the
maximum. -/
theorem claim_C10 {id : Nat} {k : String} {logs : List LogRecord}
    {inc : Incident} (h : create_incident id k logs = some inc) :
    ((inc.logs.map (fun r => r.level)).find?
        (fun l => level_priority l == level_priority inc.severity) =
      some inc.severity) ∧
      (∀ l ∈ inc.logs.map (fun r => r.level),
        level_priority l ≤ level_priority inc.severity) ∧
      (create_incident 1 "blk_B" tieLogs).map Incident.severity =
        some "TRACE" := by
  cases logs with
  | nil => cases h
  | cons l0 ls =>
    rw [create_incident_some] at h
    have hinc := (Option.some.inj h).symm
    subst hinc
    obtain ⟨hle, hfind⟩ := pyMaxBy_spec l0.level (ls.map (·.level))
    refine ⟨?_, ?_, by decide⟩
    · show ((l0 :: ls).map (fun r => r.level)).find?
          (fun l => level_priority l ==
            level_priority (pyMaxBy l0.level (ls.map (·.level)))) =
        some (pyMaxBy l0.level (ls.map (·.level)))
      rw [List.map_cons]
      exact hfind
    · intro l hl
      apply hle
      simpa using hl

theorem claim_C10_witness :
    ((exInc3.logs.map (fun r => r.level)).find?
        (fun l => level_priority l == level_priority exInc3.severity) =
      some exInc3.severity) ∧
      level_priority "WARN" ≤ level_priority exInc3.severity ∧
      (create_incident 1 "blk_B" tieLogs).map Incident.severity =
        some "TRACE" :=
  have h := @claim_C10 3 "blk_A" exampleLogs exInc3 (by decide)
  ⟨h.1, h.2.1 "WARN" (by decide), h.2.2⟩

/-- C8: an incident aggregated from a non-empty cluster has `start_time`
and `end_time` equal to the minimum and maximum member timestamps,
`duration_seconds` equal to their difference and non-negative (zero for a
single record), `num_logs` equal to the member count and at least 1, and
`components` equal, as a set without duplicates, to the member component
values. -/
theorem claim_C8 {id : Nat} {k : String} {logs : List LogRecord}
    {inc : Incident} (h : create_incident id k logs = some inc) :
    inc.start_time ∈ logs.map (fun r => r.timestamp) ∧
      inc.end_time ∈ logs.map (fun r => r.timestamp) ∧
      (∀ t ∈ logs.map (fun r => r.timestamp),
        inc.start_time ≤ t ∧ t ≤ inc.end_time) ∧
      inc.duration_seconds = (inc.end_time : Int) - (inc.start_time : Int) ∧
      0 ≤ inc.duration_seconds ∧
      (logs.length = 1 → inc.duration_seconds = 0) ∧
      inc.num_logs = logs.length ∧ 1 ≤ inc.num_logs ∧
      (∀ comp, comp ∈ inc.components ↔ comp ∈ logs.map (fun r => r.component)) ∧
      inc.components.Nodup := by
  cases logs with
  | nil => cases h
  | cons l0 ls =>
    rw [create_incident_some] at h
    have hinc := (Option.some.inj h).symm
    subst hinc
    have hminmem := pyMinNat_mem l0.timestamp (ls.map (·.timestamp))
    have hmaxmem := pyMaxNat_mem l0.timestamp (ls.map (·.timestamp))
    have hminle := pyMinNat_le l0.timestamp (ls.map (·.timestamp))
    have hmaxge := pyMaxNat_ge l0.timestamp (ls.map (·.timestamp))
    have hd : pyMinNat l0.timestamp (ls.map (·.timestamp)) ≤
        pyMaxNat l0.timestamp (ls.map (·.timestamp)) :=
      le_trans (hminle _ (List.mem_cons_self _ _))
        (hmaxge _ (List.mem_cons_self _ _))
    refine ⟨by simpa using hminmem, by simpa using hmaxmem, ?_, rfl, ?_, ?_,
      rfl, by simp, ?_, nodup_dedupFirstAux _ _⟩
    · intro t ht
      have ht' : t ∈ l0.timestamp :: ls.map (·.timestamp) := by simpa using ht
      exact ⟨hminle t ht', hmaxge t ht'⟩
    · show (0 : Int) ≤ (pyMaxNat l0.timestamp (ls.map (·.timestamp)) : Int) -
        (pyMinNat l0.timestamp (ls.map (·.timestamp)) : Int)
      omega
    · intro hlen
      have hls : ls = [] := by
        cases ls with
        | nil => rfl
        | cons a as => simp at hlen
      subst hls
      show (pyMaxNat l0.timestamp (([] : List LogRecord).map (·.timestamp)) : Int) -
        (pyMinNat l0.timestamp (([] : List LogRecord).map (·.timestamp)) : Int) = 0
      simp [pyMinNat, pyMaxNat]
    · intro comp
      constructor
      · intro hcomp
        have := (mem_dedupFirstAux.1 hcomp).1
        exact this
      · intro hcomp
        exact mem_dedupFirstAux.2 ⟨hcomp, by simp⟩

theorem claim_C8_witness :
    exInc3.start_time ∈ exampleLogs.map (fun r => r.timestamp) ∧
      exInc3.end_time ∈ exampleLogs.map (fun r => r.timestamp) ∧
      (exInc3.start_time ≤ recB.timestamp ∧ recB.timestamp ≤ exInc3.end_time) ∧
      exInc3.duration_seconds =
        (exInc3.end_time : Int) - (exInc3.start_time : Int) ∧
      0 ≤ exInc3.duration_seconds ∧
      exInc3.num_logs = exampleLogs.length ∧ 1 ≤ exInc3.num_logs ∧
      ("NameNode" ∈ exInc3.components ↔
        "NameNode" ∈ exampleLogs.map (fun r => r.component)) ∧
      exInc3.components.Nodup :=
  have h := @claim_C8 3 "blk_A" exampleLogs exInc3 (by decide)
  ⟨h.1, h.2.1, h.2.2.1 recB.timestamp (by decide), h.2.2.2.1, h.2.2.2.2.1,
    h.2.2.2.2.2.2.1, h.2.2.2.2.2.2.2.1, h.2.2.2.2.2.2.2.2.1 "NameNode",
    h.2.2.2.2.2.2.2.2.2⟩

theorem mem_severity_distribution {s : String} {n : Nat} {sevs : List String} :
    ((s, n) ∈ (dedupFirst sevs).map fun x => (x, sevs.count x)) ↔
      s ∈ sevs ∧ n = sevs.count s := by
  constructor
  · intro hm
    rcases List.mem_map.1 hm with ⟨x, hx, heq⟩
    have h1 : x = s := congrArg Prod.fst heq
    have h2 : sevs.count x = n := congrArg Prod.snd heq
    refine ⟨h1 ▸ (mem_dedupFirstAux.1 hx).1, ?_⟩
    rw [← h1]
    exact h2.symm
  · rintro ⟨hs, rfl⟩
    exact List.mem_map.2 ⟨s, mem_dedupFirstAux.2 ⟨hs, by simp⟩, rfl⟩

/-- C7: for a non-empty incident collection the statistics are consistent:
`total_logs` is the sum of `num_logs`, `avg_logs_per_incident` is
`total_logs / total_incidents`, `min`/`max_logs_per_incident` are the
minimum and maximum of `num_logs`, `avg_duration_seconds` is the mean of
`duration_seconds`, and `severity_distribution` maps each occurring
severity label to the count of incidents reporting it. -/
theorem claim_C7 {incs : List Incident} {st : Stats}
    (h : get_incident_stats incs = some st) :
    st.total_incidents = incs.length ∧
      st.total_logs = (incs.map (fun i => i.num_logs)).sum ∧
      st.avg_logs_per_incident =
        (st.total_logs : Rat) / (st.total_incidents : Rat) ∧
      (∀ inc ∈ incs, st.min_logs_per_incident ≤ inc.num_logs ∧
        inc.num_logs ≤ st.max_logs_per_incident) ∧
      st.min_logs_per_incident ∈ incs.map (fun i => i.num_logs) ∧
      st.max_logs_per_incident ∈ incs.map (fun i => i.num_logs) ∧
      st.avg_duration_seconds =
        (((incs.map (fun i => i.duration_seconds)).sum : Int) : Rat) /
          ((incs.length : Nat) : Rat) ∧
      (∀ s n, (s, n) ∈ st.severity_distribution ↔
        s ∈ incs.map (fun i => i.severity) ∧
          n = (incs.map (fun i => i.severity)).count s) := by
  cases incs with
  | nil => cases h
  | cons inc0 rest =>
    simp only [get_incident_stats] at h
    have hst := (Option.some.inj h).symm
    subst hst
    refine ⟨rfl, rfl, rfl, ?_, ?_, ?_, ?_, ?_⟩
    · intro inc hinc
      have hmem : inc.num_logs ∈ inc0.num_logs :: rest.map (·.num_logs) := by
        simpa using List.mem_map_of_mem (fun i => i.num_logs) hinc
      exact ⟨pyMinNat_le _ _ _ hmem, pyMaxNat_ge _ _ _ hmem⟩
    · simpa using pyMinNat_mem inc0.num_logs (rest.map (·.num_logs))
    · simpa using pyMaxNat_mem inc0.num_logs (rest.map (·.num_logs))
    · show ((((inc0 :: rest).map (·.duration_seconds)).sum : Int) : Rat) /
          ((((inc0 :: rest).map (·.duration_seconds)).length : Nat) : Rat) = _
      rw [List.length_map]
    · intro s n
      exact mem_severity_distribution

theorem claim_C7_witness :
    exStats.total_incidents = exIncs.length ∧
      exStats.total_logs = (exIncs.map (fun i => i.num_logs)).sum ∧
      exStats.avg_logs_per_incident =
        (exStats.total_logs : Rat) / (exStats.total_incidents : Rat) ∧
      (exStats.min_logs_per_incident ≤ exInc1.num_logs ∧
        exInc1.num_logs ≤ exStats.max_logs_per_incident) ∧
      exStats.min_logs_per_incident ∈ exIncs.map (fun i => i.num_logs) ∧
      exStats.max_logs_per_incident ∈ exIncs.map (fun i => i.num_logs) ∧
      exStats.avg_duration_seconds =
        (((exIncs.map (fun i => i.duration_seconds)).sum : Int) : Rat) /
          ((exIncs.length : Nat) : Rat) ∧
      (("WARN", 1) ∈ exStats.severity_distribution ↔
        "WARN" ∈ exIncs.map (fun i => i.severity) ∧
          1 = (exIncs.map (fun i => i.severity)).count "WARN") :=
  have h := @claim_C7 exIncs exStats (by rfl)
  ⟨h.1, h.2.1, h.2.2.1, h.2.2.2.1 exInc1 (by decide), h.2.2.2.2.1,
    h.2.2.2.2.2.1, h.2.2.2.2.2.2.1, h.2.2.2.2.2.2.2 "WARN" 1⟩

end LogIncidents
